import Mathlib

/-!
Verification of the figcon configuration library (src/lib.rs).

The embedding mirrors the Rust source:

* `Value` embeds `serde_json::Value` — a tagged union over null, booleans,
  numbers, strings, arrays and objects.  `serde_json::Map<String, Value>` is
  embedded as an insertion-ordered association list with unique keys; numbers
  are embedded as integers (none of the verified operations inspects the
  numeric payload).
* The `ValueExtensions` trait methods (`obj`, `any_keys`, `set_key`,
  `get_key`, `has_key`, `remove_get_key`, `set_obj`, `new_obj` and their
  `_st` variants) become Lean functions on `Value`.  Rust's `&mut self`
  methods return the new value of `self` explicitly; methods returning a
  mutable reference into `self` return the referenced value alongside the
  updated `self`; a reachable `.unwrap()` panic is an `Except.error`.
* `FigCon` embeds the `FigCon` struct; the filesystem is an explicit map
  from paths to file contents so that `load_or_default` and `save` are pure
  state transformers.
-/

/-- Embeds `serde_json::Value`: a JSON tree.  Numbers are embedded as `Int`;
no operation of the library inspects the numeric payload. -/
inductive Value where
  | null
  | bool (b : Bool)
  | num (n : Int)
  | str (s : String)
  | arr (elems : List Value)
  | object (entries : List (String × Value))

/-! ### The association-list embedding of `serde_json::Map<String, Value>` -/

/-- `Map::contains_key`. -/
def mapContains : List (String × Value) → String → Bool
  | [], _ => false
  | e :: rest, k => if e.1 = k then true else mapContains rest k

/-- `Map::get`: the value of the first entry with the given key. -/
def mapGet : List (String × Value) → String → Option Value
  | [], _ => none
  | e :: rest, k => if e.1 = k then some e.2 else mapGet rest k

/-- `map[&key] = value` (IndexMut on a present key): overwrite the entry in
place, keeping its position. -/
def mapAssign : List (String × Value) → String → Value → List (String × Value)
  | [], _, _ => []
  | e :: rest, k, v => if e.1 = k then (k, v) :: rest else e :: mapAssign rest k v

/-- `Map::insert` of a fresh key: the new entry goes at the end. -/
def mapInsert (m : List (String × Value)) (k : String) (v : Value) :
    List (String × Value) :=
  m ++ [(k, v)]

/-- `Map::remove`: returns the removed value (if any) and the remaining map. -/
def mapRemove : List (String × Value) → String → Option Value × List (String × Value)
  | [], _ => (none, [])
  | e :: rest, k =>
    if e.1 = k then (some e.2, rest)
    else
      let p := mapRemove rest k
      (p.1, e :: p.2)

/-- `Map::extend`: insert every entry of `other` in order — overwrite in
place when the key is present, append when it is fresh. -/
def mapExtend (m other : List (String × Value)) : List (String × Value) :=
  other.foldl
    (fun acc e => if mapContains acc e.1 then mapAssign acc e.1 e.2 else mapInsert acc e.1 e.2)
    m

/-- How many entries of the map carry the key. -/
def countKey : List (String × Value) → String → Nat
  | [], _ => 0
  | e :: rest, k => (if e.1 = k then 1 else 0) + countKey rest k

/-! ### The `ValueExtensions` trait methods (src/lib.rs lines 38-298) -/

/-- `Value::is_object`. -/
def Value.isObject : Value → Bool
  | .object _ => true
  | _ => false

/-- `fn obj` (lines 42-45): the object inside the value, if it is one. -/
def Value.obj : Value → Option (List (String × Value))
  | .object m => some m
  | _ => none

/-- `fn any_keys` (lines 60-67): true iff the value is an object with at
least one key; false on non-objects. -/
def Value.any_keys (self : Value) : Bool :=
  match self.obj with
  | some m => !m.isEmpty
  | none => false

/-- `fn set_key` (lines 110-121): on an object, overwrite the key if present
else insert it; a silent no-op on non-objects. -/
def Value.set_key (self : Value) (key : String) (value : Value) : Value :=
  match self with
  | .object m =>
    if mapContains m key then .object (mapAssign m key value)
    else .object (mapInsert m key value)
  | _ => self

/-- `fn set_key_st` (lines 128-130): delegates to `set_key` on the owned key. -/
def Value.set_key_st (self : Value) (key : String) (value : Value) : Value :=
  self.set_key key value

/-- `fn get_key` (lines 137-148): the value at the key if the receiver is an
object containing it; `none` otherwise. -/
def Value.get_key (self : Value) (key : String) : Option Value :=
  match self with
  | .object m => if mapContains m key then mapGet m key else none
  | _ => none

/-- `fn get_key_st` (lines 155-157): delegates to `get_key` on the owned key. -/
def Value.get_key_st (self : Value) (key : String) : Option Value :=
  self.get_key key

/-- `fn has_key` (lines 164-171). -/
def Value.has_key (self : Value) (key : String) : Bool :=
  match self.obj with
  | some m => mapContains m key
  | none => false

/-- `fn has_key_st` (lines 178-180): delegates to `has_key` on the owned key. -/
def Value.has_key_st (self : Value) (key : String) : Bool :=
  self.has_key key

/-- `fn remove_get_key` (lines 187-194): the removed value (if any) together
with the updated receiver. -/
def Value.remove_get_key (self : Value) (key : String) : Option Value × Value :=
  match self with
  | .object m =>
    let p := mapRemove m key
    (p.1, .object p.2)
  | _ => (none, self)

/-- `fn remove_get_key_st` (lines 201-203): delegates to `remove_get_key`. -/
def Value.remove_get_key_st (self : Value) (key : String) : Option Value × Value :=
  self.remove_get_key key

/-- `fn remove_key` (lines 210-212): `remove_get_key`, discarding the value. -/
def Value.remove_key (self : Value) (key : String) : Value :=
  (self.remove_get_key key).2

/-- `fn set_obj` (lines 228-242), the merge operation.  Returns early when
`object` is not an object or has no keys; computes `can_extend` from
`has_key` and `any_keys`; in the extend branch calls
`self_obj.extend(object.obj().unwrap().clone())` on **self's own map**, and
otherwise `self.set_key(key, object)`. -/
def Value.set_obj (self : Value) (key : String) (object : Value) : Value :=
  if !object.isObject then self
  else if !object.any_keys then self
  else
    let can_extend := self.has_key key && self.any_keys
    match self with
    | .object self_m =>
      if can_extend then Value.object (mapExtend self_m (object.obj.getD []))
      else (Value.object self_m).set_key key object
    | _ => self

/-- `fn new_obj` (lines 284-288): `none` on non-objects; otherwise inserts an
empty object at the key and returns `self.get_key(key).unwrap()` — the
`.unwrap()` panic is the `Except.error` case. -/
def Value.new_obj (self : Value) (key : String) :
    Except String (Option Value × Value) :=
  if !self.isObject then .ok (none, self)
  else
    let s1 := self.set_key key (Value.object [])
    match s1.get_key key with
    | some v => .ok (some v, s1)
    | none => .error "called unwrap on a None value"

/-! ### The `FigCon` struct (src/lib.rs lines 300-539) -/

/-- What the filesystem holds at a path, as `load_or_default` distinguishes
the cases: the path does not exist, it exists but `File::open` fails, it
opens but `read_to_string` fails, or reading yields a string. -/
inductive FileContent where
  | absent
  | openFail
  | readFail
  | content (s : String)

/-- The filesystem collaborator: what each path currently holds. -/
abbrev FS := String → FileContent

/-- Embeds `struct FigCon` (lines 306-309). -/
structure FigCon where
  live_config : Value
  location : String

/-! ### The external (de)serializer collaborator

`serde_json`'s `to_writer_pretty` / `from_str` are not part of this
repository; the spec scopes them out as "an external collaborator providing
… a tree (de)serializer" whose obligations are round-trip fidelity up to
textual formatting and determinism within one implementation.  The
definitions below model that collaborator from the spec as a standard
textual JSON serialization of the `Value` tree. -/

/-- The decimal digit character for `d < 10`. -/
def dChar (d : Nat) : Char := Char.ofNat (48 + d)

/-- Decimal digits of `n`, most significant first (meant for `n ≠ 0`). -/
def natChars (n : Nat) : List Char := (Nat.digits 10 n).reverse.map dChar

/-- Decimal rendering of a natural number. -/
def printNat (n : Nat) : List Char := if n = 0 then ['0'] else natChars n

/-- Decimal rendering of an integer, with a leading minus when negative. -/
def printInt (n : Int) : List Char :=
  if n < 0 then '-' :: printNat (-n).toNat else printNat n.toNat

/-- JSON string escaping: quote and backslash get a leading backslash. -/
def escChar (c : Char) : List Char :=
  if c = '"' ∨ c = '\\' then ['\\', c] else [c]

/-- Escape every character of a string body. -/
def escList : List Char → List Char
  | [] => []
  | c :: rest => escChar c ++ escList rest

mutual

/-- Serialize a `Value` to JSON text (as a character list). -/
def printChars : Value → List Char
  | .null => 'n' :: ['u', 'l', 'l']
  | .bool true => 't' :: ['r', 'u', 'e']
  | .bool false => 'f' :: ['a', 'l', 's', 'e']
  | .num n => printInt n
  | .str s => '"' :: (escList s.data ++ ['"'])
  | .arr vs => '[' :: (printItemsChars vs ++ [']'])
  | .object m => '{' :: (printFieldsChars m ++ ['}'])

/-- Serialize the comma-separated elements of an array. -/
def printItemsChars : List Value → List Char
  | [] => []
  | [v] => printChars v
  | v :: rest => printChars v ++ ',' :: printItemsChars rest

/-- Serialize the comma-separated `"key":value` fields of an object. -/
def printFieldsChars : List (String × Value) → List Char
  | [] => []
  | [(k, v)] => '"' :: (escList k.data ++ '"' :: ':' :: printChars v)
  | (k, v) :: rest =>
    ('"' :: (escList k.data ++ '"' :: ':' :: printChars v)) ++ ',' :: printFieldsChars rest

end

/-- Modelled from the spec: `serde_json::to_string_pretty` /
`to_writer_pretty`, the serializer half of the external collaborator
(missing from src/) — "serializes the current root tree to a … textual
form"; the claims compare trees "ignoring textual formatting", so the
model emits no inter-token whitespace. -/
def to_string_pretty (v : Value) : String := String.mk (printChars v)

/-- Longest digit run at the head of the input, and the remainder. -/
def spanDigits : List Char → List Char × List Char
  | [] => ([], [])
  | c :: rest =>
    if c.isDigit then
      let p := spanDigits rest
      (c :: p.1, p.2)
    else ([], c :: rest)

/-- The natural number denoted by a big-endian digit run. -/
def digitsVal (cs : List Char) : Nat :=
  cs.foldl (fun a c => 10 * a + (c.toNat - 48)) 0

/-- Parse a JSON string body up to its closing quote, unescaping. -/
def parseEscStr : List Char → Option (List Char × List Char)
  | [] => none
  | c :: rest =>
    if c = '"' then some ([], rest)
    else if c = '\\' then
      match rest with
      | d :: rest2 => (parseEscStr rest2).map fun p => (d :: p.1, p.2)
      | [] => none
    else (parseEscStr rest).map fun p => (c :: p.1, p.2)

/-- Consume an expected literal run of characters. -/
def dropLead : List Char → List Char → Option (List Char)
  | [], input => some input
  | _ :: _, [] => none
  | p :: ps, c :: cs => if c = p then dropLead ps cs else none

/-- Whether the input starts with the given character. -/
def headIs : List Char → Char → Bool
  | [], _ => false
  | c :: _, d => c = d

/-- Whether the input does not start with a digit. -/
def noDigitHead : List Char → Bool
  | [] => true
  | c :: _ => !c.isDigit

mutual

/-- Parse one JSON value; the fuel bounds recursion depth. -/
def parseValue : Nat → List Char → Option (Value × List Char)
  | 0, _ => none
  | _ + 1, [] => none
  | fuel + 1, c :: rest =>
    if c = 'n' then
      match dropLead ['u', 'l', 'l'] rest with
      | some rest2 => some (.null, rest2)
      | none => none
    else if c = 't' then
      match dropLead ['r', 'u', 'e'] rest with
      | some rest2 => some (.bool true, rest2)
      | none => none
    else if c = 'f' then
      match dropLead ['a', 'l', 's', 'e'] rest with
      | some rest2 => some (.bool false, rest2)
      | none => none
    else if c = '"' then
      match parseEscStr rest with
      | some p => some (.str (String.mk p.1), p.2)
      | none => none
    else if c = '[' then
      if headIs rest ']' then some (.arr [], rest.tail)
      else
        match parseItems fuel rest with
        | some p => some (.arr p.1, p.2)
        | none => none
    else if c = '{' then
      if headIs rest '}' then some (.object [], rest.tail)
      else
        match parseFields fuel rest with
        | some p => some (.object p.1, p.2)
        | none => none
    else if c = '-' then
      let p := spanDigits rest
      if p.1.isEmpty then none else some (.num (-(digitsVal p.1 : Int)), p.2)
    else if c.isDigit then
      let p := spanDigits (c :: rest)
      some (.num ((digitsVal p.1 : Int)), p.2)
    else none

/-- Parse the elements of a non-empty array, consuming the closing bracket. -/
def parseItems : Nat → List Char → Option (List Value × List Char)
  | 0, _ => none
  | fuel + 1, input =>
    match parseValue fuel input with
    | some (v, rest) =>
      match rest with
      | r :: rest2 =>
        if r = ',' then
          match parseItems fuel rest2 with
          | some p => some (v :: p.1, p.2)
          | none => none
        else if r = ']' then some ([v], rest2)
        else none
      | [] => none
    | none => none

/-- Parse the fields of a non-empty object, consuming the closing brace. -/
def parseFields : Nat → List Char → Option (List (String × Value) × List Char)
  | 0, _ => none
  | _ + 1, [] => none
  | fuel + 1, c :: rest =>
    if c = '"' then
      match parseEscStr rest with
      | some pk =>
        match pk.2 with
        | d :: rest3 =>
          if d = ':' then
            match parseValue fuel rest3 with
            | some (v, rest4) =>
              match rest4 with
              | e :: rest5 =>
                if e = ',' then
                  match parseFields fuel rest5 with
                  | some p => some ((String.mk pk.1, v) :: p.1, p.2)
                  | none => none
                else if e = '}' then some ([(String.mk pk.1, v)], rest5)
                else none
              | [] => none
            | none => none
          else none
        | [] => none
      | none => none
    else none

end

/-- Modelled from the spec: `serde_json::from_str`, the parser half of the
external collaborator (missing from src/) — parses "any file whose full
textual contents parse as a generic hierarchical value document", `none`
on malformed content (including trailing garbage). -/
def from_str (s : String) : Option Value :=
  match parseValue (s.length + 1) s.data with
  | some (v, []) => some v
  | _ => none

/-- `FigCon::load_or_default` (lines 327-336): on an existing, openable path
read it (a read failure is the `expect` panic) and parse it (a parse failure
is the `expect` panic); any other path yields the empty-object default. -/
def FigCon.load_or_default (fs : FS) (path : String) : Except String FigCon :=
  match fs path with
  | .content s =>
    match from_str s with
    | some json => .ok ⟨json, path⟩
    | none => .error "JSON deserialization failed"
  | .readFail => .error "Failed to read config from storage"
  | _ => .ok ⟨Value.object [], path⟩

/-- `FigCon::save` (lines 357-361): write the serialized live config to the
stored location, creating or truncating the file. -/
def FigCon.save (fs : FS) (c : FigCon) : FS :=
  fun p => if p = c.location then .content (to_string_pretty c.live_config) else fs p

/-- `FigCon::any_keys` (lines 368-370). -/
def FigCon.any_keys (c : FigCon) : Bool :=
  c.live_config.any_keys

/-- `FigCon::get_key` (lines 405-407). -/
def FigCon.get_key (c : FigCon) (key : String) : Option Value :=
  c.live_config.get_key key

/-- `FigCon::set_key` (lines 423-425). -/
def FigCon.set_key (c : FigCon) (key : String) (value : Value) : FigCon :=
  { c with live_config := c.live_config.set_key key value }

/-- `FigCon::has_key` (lines 441-443). -/
def FigCon.has_key (c : FigCon) (key : String) : Bool :=
  c.live_config.has_key key

/-- `FigCon::remove_get_key` (lines 459-461). -/
def FigCon.remove_get_key (c : FigCon) (key : String) : Option Value × FigCon :=
  let p := c.live_config.remove_get_key key
  (p.1, { c with live_config := p.2 })

/-- `FigCon::set_obj` (lines 495-497). -/
def FigCon.set_obj (c : FigCon) (key : String) (object : Value) : FigCon :=
  { c with live_config := c.live_config.set_obj key object }

/-- `FigCon::new_obj` (lines 529-531): delegates to `Value::new_obj` and
`.unwrap()`s the option — the comment claims the live config is always an
object, so the `none` case is a panic (`Except.error`). -/
def FigCon.new_obj (c : FigCon) (key : String) : Except String (Value × FigCon) :=
  match c.live_config.new_obj key with
  | .ok (some v, s1) => .ok (v, { c with live_config := s1 })
  | .ok (none, _) => .error "called unwrap on a None value"
  | .error e => .error e

/-- Well-formedness the real `serde_json::Map` guarantees and the list
embedding must assume: the top-level keys of an object are distinct (trivial
on non-objects). -/
def Value.topKeysNodup : Value → Prop
  | .object m => (m.map Prod.fst).Nodup
  | _ => True

/-! ### Association-list lemmas -/

theorem mapContains_iff_mem (m : List (String × Value)) (k : String) :
    mapContains m k = true ↔ k ∈ m.map Prod.fst := by
  induction m with
  | nil => simp [mapContains]
  | cons e rest ih =>
    by_cases h : e.1 = k
    · simp [mapContains, h, eq_comm]
    · simp only [mapContains, if_neg h, ih, List.map_cons, List.mem_cons]
      constructor
      · exact Or.inr
      · rintro (hk | hm)
        · exact absurd hk.symm h
        · exact hm

theorem mapGet_eq_none_of_not_contains (m : List (String × Value)) (k : String)
    (h : mapContains m k = false) : mapGet m k = none := by
  induction m with
  | nil => simp [mapGet]
  | cons e rest ih =>
    by_cases he : e.1 = k
    · simp [mapContains, he] at h
    · simp [mapContains, he] at h
      simp [mapGet, he, ih h]

theorem get_key_eq_mapGet (m : List (String × Value)) (k : String) :
    (Value.object m).get_key k = mapGet m k := by
  by_cases h : mapContains m k
  · simp [Value.get_key, h]
  · simp only [Bool.not_eq_true] at h
    simp [Value.get_key, h, mapGet_eq_none_of_not_contains m k h]

theorem mapContains_assign (m : List (String × Value)) (k : String) (v : Value) :
    mapContains (mapAssign m k v) k = mapContains m k := by
  induction m with
  | nil => simp [mapAssign]
  | cons e rest ih =>
    by_cases h : e.1 = k <;> simp [mapAssign, mapContains, h, ih]

theorem mapGet_assign (m : List (String × Value)) (k : String) (v : Value)
    (h : mapContains m k = true) : mapGet (mapAssign m k v) k = some v := by
  induction m with
  | nil => simp [mapContains] at h
  | cons e rest ih =>
    by_cases he : e.1 = k
    · simp [mapAssign, he, mapGet]
    · simp [mapContains, he] at h
      simp [mapAssign, he, mapGet, ih h]

theorem mapContains_append (m m' : List (String × Value)) (k : String) :
    mapContains (m ++ m') k = (mapContains m k || mapContains m' k) := by
  induction m with
  | nil => simp [mapContains]
  | cons e rest ih =>
    by_cases h : e.1 = k <;> simp [mapContains, h, ih]

theorem mapGet_append_right (m m' : List (String × Value)) (k : String)
    (h : mapContains m k = false) : mapGet (m ++ m') k = mapGet m' k := by
  induction m with
  | nil => simp
  | cons e rest ih =>
    by_cases he : e.1 = k
    · simp [mapContains, he] at h
    · simp [mapContains, he] at h
      simp [mapGet, he, ih h]

theorem get_key_set_key (m : List (String × Value)) (k : String) (v : Value) :
    ((Value.object m).set_key k v).get_key k = some v := by
  by_cases h : mapContains m k
  · simp only [Value.set_key, h, if_true]
    rw [get_key_eq_mapGet, mapGet_assign m k v h]
  · simp only [Bool.not_eq_true] at h
    simp only [Value.set_key, h, Bool.false_eq_true, if_false]
    rw [get_key_eq_mapGet, mapInsert, mapGet_append_right m _ k h]
    simp [mapGet]

theorem has_key_set_key (m : List (String × Value)) (k : String) (v : Value) :
    ((Value.object m).set_key k v).has_key k = true := by
  by_cases h : mapContains m k
  · simp [Value.set_key, h, Value.has_key, Value.obj, mapContains_assign, h]
  · simp only [Bool.not_eq_true] at h
    simp [Value.set_key, h, Value.has_key, Value.obj, mapInsert, mapContains_append,
      mapContains]

theorem isObject_set_key (m : List (String × Value)) (k : String) (v : Value) :
    ((Value.object m).set_key k v).isObject = true := by
  by_cases h : mapContains m k <;> simp_all [Value.set_key, Value.isObject]

theorem countKey_assign (m : List (String × Value)) (k : String) (v : Value) :
    countKey (mapAssign m k v) k = countKey m k := by
  induction m with
  | nil => simp [mapAssign]
  | cons e rest ih =>
    by_cases h : e.1 = k <;> simp [mapAssign, countKey, h, ih]

theorem countKey_eq_zero_of_not_mem (m : List (String × Value)) (k : String)
    (h : k ∉ m.map Prod.fst) : countKey m k = 0 := by
  induction m with
  | nil => simp [countKey]
  | cons e rest ih =>
    simp only [List.map_cons, List.mem_cons, not_or] at h
    have he : ¬ e.1 = k := fun hk => h.1 hk.symm
    simp [countKey, he, ih h.2]

theorem countKey_append (m m' : List (String × Value)) (k : String) :
    countKey (m ++ m') k = countKey m k + countKey m' k := by
  induction m with
  | nil => simp [countKey]
  | cons e rest ih => simp [countKey, ih]; omega

theorem countKey_eq_one_of_nodup (m : List (String × Value)) (k : String)
    (hnd : (m.map Prod.fst).Nodup) (h : mapContains m k = true) :
    countKey m k = 1 := by
  induction m with
  | nil => simp [mapContains] at h
  | cons e rest ih =>
    simp only [List.map_cons, List.nodup_cons] at hnd
    by_cases he : e.1 = k
    · have : k ∉ rest.map Prod.fst := he ▸ hnd.1
      simp [countKey, he, countKey_eq_zero_of_not_mem rest k this]
    · simp [mapContains, he] at h
      simp [countKey, he, ih hnd.2 h]

theorem mapRemove_fst (m : List (String × Value)) (k : String) :
    (mapRemove m k).1 = mapGet m k := by
  induction m with
  | nil => simp [mapRemove, mapGet]
  | cons e rest ih =>
    by_cases h : e.1 = k <;> simp [mapRemove, mapGet, h, ih]

theorem mapRemove_not_contains (m : List (String × Value)) (k : String)
    (hnd : (m.map Prod.fst).Nodup) :
    mapContains (mapRemove m k).2 k = false := by
  induction m with
  | nil => simp [mapRemove, mapContains]
  | cons e rest ih =>
    simp only [List.map_cons, List.nodup_cons] at hnd
    by_cases h : e.1 = k
    · have : k ∉ rest.map Prod.fst := h ▸ hnd.1
      simp only [mapRemove, h, if_true]
      rw [Bool.eq_false_iff]
      intro hc
      exact this ((mapContains_iff_mem rest k).1 hc)
    · simp [mapRemove, mapContains, h, ih hnd.2]

theorem set_key_object_shape (m : List (String × Value)) (k : String) (v : Value) :
    ∃ m2, (Value.object m).set_key k v = Value.object m2 := by
  by_cases h : mapContains m k
  · exact ⟨mapAssign m k v, by simp [Value.set_key, h]⟩
  · exact ⟨mapInsert m k v, by simp [Value.set_key, h]⟩

theorem set_obj_object_shape (m : List (String × Value)) (k : String) (o : Value) :
    ∃ m2, (Value.object m).set_obj k o = Value.object m2 := by
  by_cases h1 : (!o.isObject) = true
  · exact ⟨m, by simp only [Value.set_obj, h1, if_true]⟩
  · by_cases h2 : (!o.any_keys) = true
    · exact ⟨m, by simp only [Value.set_obj, h1, h2, if_true, Bool.false_eq_true, if_false]⟩
    · by_cases h3 : ((Value.object m).has_key k && (Value.object m).any_keys) = true
      · refine ⟨mapExtend m (o.obj.getD []), ?_⟩
        simp only [Value.set_obj, h1, h2, h3, Bool.false_eq_true, if_false, if_true]
      · obtain ⟨m2, hm2⟩ := set_key_object_shape m k o
        refine ⟨m2, ?_⟩
        simp only [Value.set_obj, h1, h2, h3, Bool.false_eq_true, if_false]
        exact hm2

theorem isObject_set_obj (self : Value) (k : String) (o : Value)
    (h : self.isObject = true) : (self.set_obj k o).isObject = true := by
  cases self with
  | object m =>
    obtain ⟨m2, hm2⟩ := set_obj_object_shape m k o
    rw [hm2]
    rfl
  | null => simp [Value.isObject] at h
  | bool b => simp [Value.isObject] at h
  | num n => simp [Value.isObject] at h
  | str s => simp [Value.isObject] at h
  | arr vs => simp [Value.isObject] at h

/-! ### Claim theorems -/

/-- Claim C1 (code bug, src/lib.rs lines 228-242): at the failing input
`self = {"k": {"a": 1}}`, `key = "k"`, `incoming = {"c": 3}` the extend
branch of `set_obj` merges `incoming`'s entries into **self's own map**
(the `key` parameter is ignored there), so the value left at `"k"` is the
unchanged `{"a": 1}` rather than the claimed one-level merge
`{"a": 1, "c": 3}`. -/
theorem set_obj_extends_self_not_child :
    (Value.object [("k", Value.object [("a", Value.num 1)])]).set_obj "k"
        (Value.object [("c", Value.num 3)]) =
      Value.object [("k", Value.object [("a", Value.num 1)]), ("c", Value.num 3)] ∧
    ((Value.object [("k", Value.object [("a", Value.num 1)])]).set_obj "k"
        (Value.object [("c", Value.num 3)])).get_key "k" =
      some (Value.object [("a", Value.num 1)]) ∧
    some (Value.object [("a", Value.num 1)]) ≠
      some (Value.object [("a", Value.num 1), ("c", Value.num 3)]) := by
  refine ⟨rfl, rfl, ?_⟩
  intro hcontra
  simp only [Option.some.injEq, Value.object.injEq, List.cons.injEq] at hcontra
  exact List.noConfusion hcontra.2

/-- Claim C3: `set_obj` with an `incoming` that is not an object or is an
object with zero keys is a no-op — `self` is unchanged, hence so are
`any_keys()` and `get(k)`. -/
theorem set_obj_noop_on_trivial_incoming (self : Value) (k : String) (incoming : Value)
    (h : incoming.isObject = false ∨ incoming.any_keys = false) :
    self.set_obj k incoming = self ∧
    (self.set_obj k incoming).any_keys = self.any_keys ∧
    (self.set_obj k incoming).get_key k = self.get_key k := by
  have h0 : self.set_obj k incoming = self := by
    rcases h with h | h
    · simp [Value.set_obj, h]
    · by_cases h2 : incoming.isObject = true <;> simp [Value.set_obj, h, h2]
  exact ⟨h0, by rw [h0], by rw [h0]⟩

theorem set_obj_noop_on_trivial_incoming_witness :
    (Value.object [("a", Value.num 1)]).set_obj "b" (Value.object []) =
      Value.object [("a", Value.num 1)] ∧
    ((Value.object [("a", Value.num 1)]).set_obj "b" (Value.object [])).any_keys =
      (Value.object [("a", Value.num 1)]).any_keys ∧
    ((Value.object [("a", Value.num 1)]).set_obj "b" (Value.object [])).get_key "b" =
      (Value.object [("a", Value.num 1)]).get_key "b" :=
  set_obj_noop_on_trivial_incoming (Value.object [("a", Value.num 1)]) "b"
    (Value.object []) (Or.inr rfl)

/-- Claim C4: on a non-Object node, `get_key` is `none`, `has_key` is
`false`, `remove_get_key` is `none` and leaves the node unchanged,
`set_key` leaves the node unchanged, and `any_keys` is `false` — all are
total functions, no panic and no error value. -/
theorem non_object_ops_safe (self : Value) (k : String) (v : Value)
    (h : self.isObject = false) :
    self.get_key k = none ∧ self.has_key k = false ∧
    self.remove_get_key k = (none, self) ∧ self.set_key k v = self ∧
    self.any_keys = false := by
  cases self <;> simp_all [Value.isObject, Value.get_key, Value.has_key, Value.obj,
    Value.remove_get_key, Value.set_key, Value.any_keys]

theorem non_object_ops_safe_witness :
    (Value.num 5).get_key "a" = none ∧ (Value.num 5).has_key "a" = false ∧
    (Value.num 5).remove_get_key "a" = (none, Value.num 5) ∧
    (Value.num 5).set_key "a" Value.null = Value.num 5 ∧
    (Value.num 5).any_keys = false :=
  non_object_ops_safe (Value.num 5) "a" Value.null rfl

/-- Claim C5: on an Object node, after `set_key k v` the key reads back as
`some v` and `has_key` is true, whether or not `k` was present; the result
is an object whose entries carry the key exactly once (no duplication). -/
theorem set_key_then_get (m : List (String × Value)) (k : String) (v : Value)
    (h : (m.map Prod.fst).Nodup) :
    ((Value.object m).set_key k v).get_key k = some v ∧
    ((Value.object m).set_key k v).has_key k = true ∧
    ∃ m2, (Value.object m).set_key k v = Value.object m2 ∧ countKey m2 k = 1 := by
  refine ⟨get_key_set_key m k v, has_key_set_key m k v, ?_⟩
  by_cases hc : mapContains m k
  · refine ⟨mapAssign m k v, by simp [Value.set_key, hc], ?_⟩
    rw [countKey_assign]
    exact countKey_eq_one_of_nodup m k h hc
  · refine ⟨mapInsert m k v, by simp [Value.set_key, hc], ?_⟩
    rw [mapInsert, countKey_append]
    have h0 : countKey m k = 0 := by
      apply countKey_eq_zero_of_not_mem
      intro hm
      exact hc ((mapContains_iff_mem m k).2 hm)
    simp [h0, countKey]

theorem set_key_then_get_witness :
    ((Value.object [("a", Value.num 1)]).set_key "a" (Value.num 2)).get_key "a" =
      some (Value.num 2) ∧
    ((Value.object [("a", Value.num 1)]).set_key "a" (Value.num 2)).has_key "a" = true ∧
    ∃ m2, (Value.object [("a", Value.num 1)]).set_key "a" (Value.num 2) =
      Value.object m2 ∧ countKey m2 "a" = 1 :=
  set_key_then_get [("a", Value.num 1)] "a" (Value.num 2) (by simp)

/-- Claim C6: for any node whose top-level keys are distinct (as the real
`serde_json::Map` guarantees), `remove_get_key k` leaves a node on which
`has_key k` is false, and returns exactly what `get_key k` returned before
the removal. -/
theorem remove_then_absent (self : Value) (k : String) (h : self.topKeysNodup) :
    ((self.remove_get_key k).2).has_key k = false ∧
    (self.remove_get_key k).1 = self.get_key k := by
  cases self with
  | object m =>
    constructor
    · simp only [Value.remove_get_key, Value.has_key, Value.obj]
      exact mapRemove_not_contains m k h
    · simp only [Value.remove_get_key]
      rw [get_key_eq_mapGet]
      exact mapRemove_fst m k
  | null => simp [Value.remove_get_key, Value.has_key, Value.obj, Value.get_key]
  | bool b => simp [Value.remove_get_key, Value.has_key, Value.obj, Value.get_key]
  | num n => simp [Value.remove_get_key, Value.has_key, Value.obj, Value.get_key]
  | str s => simp [Value.remove_get_key, Value.has_key, Value.obj, Value.get_key]
  | arr vs => simp [Value.remove_get_key, Value.has_key, Value.obj, Value.get_key]

theorem remove_then_absent_witness :
    (((Value.object [("a", Value.num 1)]).remove_get_key "a").2).has_key "a" = false ∧
    ((Value.object [("a", Value.num 1)]).remove_get_key "a").1 =
      (Value.object [("a", Value.num 1)]).get_key "a" :=
  remove_then_absent (Value.object [("a", Value.num 1)]) "a" (by simp [Value.topKeysNodup])

/-- Claim C7: each `_st` (borrowed-key) accessor delegates to its owned-key
counterpart on the same key content (`key.to_owned()` is the identity on
the key string), so return value and resulting state coincide. -/
theorem st_accessors_equivalent (self : Value) (k : String) (v : Value) :
    self.set_key_st k v = self.set_key k v ∧
    self.get_key_st k = self.get_key k ∧
    self.has_key_st k = self.has_key k ∧
    self.remove_get_key_st k = self.remove_get_key k :=
  ⟨rfl, rfl, rfl, rfl⟩

/-- Claim C2 (amended): the root is an Object after `load_or_default`
whenever the path is absent or fails to open, and every key-level operation
(`set_key`, `remove_get_key`, `set_obj`, `new_obj`) preserves the Object
variant of the root; the counterexample shows the claim's further assertion
— that the root is an Object after `load_or_default` on *every* parseable
file — fails. -/
theorem root_object_amended (fs : FS) (path : String) (c : FigCon) (k : String) (v : Value) :
    ((fs path = FileContent.absent ∨ fs path = FileContent.openFail) →
      FigCon.load_or_default fs path = .ok ⟨Value.object [], path⟩ ∧
      (Value.object ([] : List (String × Value))).isObject = true) ∧
    (c.live_config.isObject = true →
      (c.set_key k v).live_config.isObject = true ∧
      ((c.remove_get_key k).2).live_config.isObject = true ∧
      (c.set_obj k v).live_config.isObject = true ∧
      ∀ r c1, FigCon.new_obj c k = .ok (r, c1) → c1.live_config.isObject = true) := by
  constructor
  · rintro (h | h) <;> rw [FigCon.load_or_default, h] <;> exact ⟨rfl, rfl⟩
  · intro h
    obtain ⟨lc, loc⟩ := c
    cases lc with
    | object m =>
      refine ⟨isObject_set_key m k v, rfl, isObject_set_obj (Value.object m) k v rfl, ?_⟩
      have hno : FigCon.new_obj ⟨Value.object m, loc⟩ k =
          .ok (Value.object [],
            ⟨(Value.object m).set_key k (Value.object []), loc⟩) := by
        simp [FigCon.new_obj, Value.new_obj, Value.isObject, get_key_set_key]
      intro r c1 h1
      rw [hno] at h1
      have h3 : c1 = ⟨(Value.object m).set_key k (Value.object []), loc⟩ :=
        (congrArg Prod.snd (Except.ok.inj h1)).symm
      rw [h3]
      exact isObject_set_key m k (Value.object [])
    | null => simp [Value.isObject] at h
    | bool b => simp [Value.isObject] at h
    | num n => simp [Value.isObject] at h
    | str s => simp [Value.isObject] at h
    | arr vs => simp [Value.isObject] at h

theorem root_object_amended_witness :
    FigCon.load_or_default (fun _ => FileContent.absent) "config.json" =
      .ok ⟨Value.object [], "config.json"⟩ ∧
    (Value.object ([] : List (String × Value))).isObject = true :=
  (root_object_amended (fun _ => FileContent.absent) "config.json"
    ⟨Value.object [], "config.json"⟩ "k" Value.null).1 (Or.inl rfl)

/-- Claim C8: `load_or_default` on an absent or unopenable path silently
defaults to a store with an empty-Object root at that path (so `any_keys`
is false); a file that opens but fails to parse is the fatal
`expect`-panic, and a file that parses is loaded as-is — the absent/open
failure case is the only silently-defaulting one. -/
theorem load_or_default_error_handling (fs : FS) (path : String) :
    ((fs path = FileContent.absent ∨ fs path = FileContent.openFail) →
      FigCon.load_or_default fs path = .ok ⟨Value.object [], path⟩ ∧
      FigCon.any_keys ⟨Value.object [], path⟩ = false) ∧
    (∀ s, fs path = FileContent.content s → from_str s = none →
      FigCon.load_or_default fs path = .error "JSON deserialization failed") ∧
    (∀ s v, fs path = FileContent.content s → from_str s = some v →
      FigCon.load_or_default fs path = .ok ⟨v, path⟩) := by
  refine ⟨?_, ?_, ?_⟩
  · rintro (h | h) <;> rw [FigCon.load_or_default, h] <;> exact ⟨rfl, rfl⟩
  · intro s hs hp
    simp only [FigCon.load_or_default, hs, hp]
  · intro s v hs hp
    simp only [FigCon.load_or_default, hs, hp]

theorem load_or_default_error_handling_witness :
    FigCon.load_or_default (fun _ => FileContent.absent) "absent.json" =
      .ok ⟨Value.object [], "absent.json"⟩ ∧
    FigCon.any_keys ⟨Value.object [], "absent.json"⟩ = false :=
  (load_or_default_error_handling (fun _ => FileContent.absent) "absent.json").1
    (Or.inl rfl)

/-- Claim C10: when the root is an Object, `FigCon::new_obj` returns without
panicking the freshly inserted empty Object at `k` (the inner
`get_key(..).unwrap()` is unreachable, and any prior value at `k` is
overwritten by `set_key`); when the root is not an Object — reachable via
`load_or_default` on a non-object file — it panics (`Except.error`). -/
theorem figcon_new_obj_spec (c : FigCon) (k : String) :
    (c.live_config.isObject = true →
      FigCon.new_obj c k =
        .ok (Value.object [],
          ⟨c.live_config.set_key k (Value.object []), c.location⟩) ∧
      (c.live_config.set_key k (Value.object [])).get_key k =
        some (Value.object [])) ∧
    (c.live_config.isObject = false → ∃ e, FigCon.new_obj c k = .error e) := by
  obtain ⟨lc, loc⟩ := c
  constructor
  · intro h
    cases lc with
    | object m =>
      refine ⟨?_, get_key_set_key m k (Value.object [])⟩
      simp [FigCon.new_obj, Value.new_obj, Value.isObject, get_key_set_key]
    | null => simp [Value.isObject] at h
    | bool b => simp [Value.isObject] at h
    | num n => simp [Value.isObject] at h
    | str s => simp [Value.isObject] at h
    | arr vs => simp [Value.isObject] at h
  · intro h
    refine ⟨"called unwrap on a None value", ?_⟩
    cases lc with
    | object m => simp [Value.isObject] at h
    | null => rfl
    | bool b => rfl
    | num n => rfl
    | str s => rfl
    | arr vs => rfl

theorem figcon_new_obj_spec_witness :
    (FigCon.new_obj ⟨Value.object [("a", Value.num 1)], "cfg"⟩ "sub" =
      .ok (Value.object [],
        ⟨(Value.object [("a", Value.num 1)]).set_key "sub" (Value.object []), "cfg"⟩) ∧
      ((Value.object [("a", Value.num 1)]).set_key "sub" (Value.object [])).get_key "sub" =
        some (Value.object [])) ∧
    ∃ e, FigCon.new_obj ⟨Value.arr [], "cfg"⟩ "sub" = .error e :=
  ⟨(figcon_new_obj_spec ⟨Value.object [("a", Value.num 1)], "cfg"⟩ "sub").1 rfl,
   (figcon_new_obj_spec ⟨Value.arr [], "cfg"⟩ "sub").2 rfl⟩

/-! ### Round-trip of the modelled (de)serializer -/

theorem dChar_toNat (d : Nat) (h : d < 10) : (dChar d).toNat = 48 + d := by
  interval_cases d <;> rfl

theorem dChar_isDigit (d : Nat) (h : d < 10) : (dChar d).isDigit = true := by
  interval_cases d <;> decide

theorem printNat_digits (n : Nat) : ∀ c ∈ printNat n, c.isDigit = true := by
  intro c hc
  by_cases h0 : n = 0
  · subst h0
    have h1 : printNat 0 = ['0'] := rfl
    rw [h1, List.mem_singleton] at hc
    subst hc
    decide
  · simp only [printNat, if_neg h0, natChars, List.mem_map, List.mem_reverse] at hc
    obtain ⟨d, hd, rfl⟩ := hc
    exact dChar_isDigit d (Nat.digits_lt_base (by norm_num) hd)

theorem printNat_ne_nil (n : Nat) : printNat n ≠ [] := by
  by_cases h0 : n = 0
  · subst h0
    simp [printNat]
  · simp only [printNat, if_neg h0, natChars]
    intro h
    rw [List.map_eq_nil_iff, List.reverse_eq_nil_iff] at h
    exact (Nat.digits_ne_nil_iff_ne_zero.2 h0) h

theorem digitsVal_append_singleton (xs : List Char) (c : Char) :
    digitsVal (xs ++ [c]) = 10 * digitsVal xs + (c.toNat - 48) := by
  simp [digitsVal, List.foldl_append]

theorem digitsVal_rev_map (ds : List Nat) (h : ∀ d ∈ ds, d < 10) :
    digitsVal ((ds.map dChar).reverse) = Nat.ofDigits 10 ds := by
  induction ds with
  | nil => simp [digitsVal, Nat.ofDigits_nil]
  | cons d ds ih =>
    have hd : d < 10 := h d (List.mem_cons_self d ds)
    have hds : ∀ x ∈ ds, x < 10 := fun x hx => h x (List.mem_cons_of_mem d hx)
    rw [List.map_cons, List.reverse_cons, digitsVal_append_singleton, ih hds,
      dChar_toNat d hd, Nat.ofDigits_cons]
    simp
    omega

theorem digitsVal_printNat (n : Nat) : digitsVal (printNat n) = n := by
  by_cases h0 : n = 0
  · subst h0
    decide
  · have hlt : ∀ d ∈ Nat.digits 10 n, d < 10 :=
      fun d hd => Nat.digits_lt_base (by norm_num) hd
    rw [printNat, if_neg h0, natChars, List.map_reverse]
    rw [digitsVal_rev_map _ hlt, Nat.ofDigits_digits]

theorem spanDigits_append (ds rest : List Char)
    (hd : ∀ c ∈ ds, c.isDigit = true) (hr : noDigitHead rest = true) :
    spanDigits (ds ++ rest) = (ds, rest) := by
  induction ds with
  | nil =>
    cases rest with
    | nil => rfl
    | cons c r =>
      simp only [noDigitHead, Bool.not_eq_true'] at hr
      simp [spanDigits, hr]
  | cons c ds ih =>
    have hc : c.isDigit = true := hd c (List.mem_cons_self c ds)
    have hds : ∀ x ∈ ds, x.isDigit = true := fun x hx => hd x (List.mem_cons_of_mem c hx)
    simp [spanDigits, hc, ih hds]

theorem digit_ne_lead (c : Char) (h : c.isDigit = true) :
    ¬c = 'n' ∧ ¬c = 't' ∧ ¬c = 'f' ∧ ¬c = '"' ∧ ¬c = '[' ∧ ¬c = '{' ∧ ¬c = '-' ∧
    ¬c = ']' ∧ ¬c = '}' ∧ ¬c = ',' ∧ ¬c = ':' := by
  refine ⟨?_, ?_, ?_, ?_, ?_, ?_, ?_, ?_, ?_, ?_, ?_⟩ <;> rintro rfl <;>
    exact absurd h (by decide)

theorem parseValue_printNat_case (fuel : Nat) (m : Nat) (rest : List Char)
    (hrest : noDigitHead rest = true) :
    parseValue (fuel + 1) (printNat m ++ rest) = some (.num (m : Int), rest) := by
  obtain ⟨c0, cs0, hpn⟩ : ∃ c0 cs0, printNat m = c0 :: cs0 := by
    cases h : printNat m with
    | nil => exact absurd h (printNat_ne_nil m)
    | cons a b => exact ⟨a, b, rfl⟩
  have hdig : c0.isDigit = true :=
    printNat_digits m c0 (by rw [hpn]; exact List.mem_cons_self _ _)
  have hds : ∀ x ∈ c0 :: cs0, x.isDigit = true := by
    rw [← hpn]; exact printNat_digits m
  have hspan : spanDigits ((c0 :: cs0) ++ rest) = (c0 :: cs0, rest) :=
    spanDigits_append (c0 :: cs0) rest hds hrest
  have hne := digit_ne_lead c0 hdig
  rw [hpn, List.cons_append]
  simp only [parseValue]
  rw [if_neg hne.1, if_neg hne.2.1, if_neg hne.2.2.1, if_neg hne.2.2.2.1,
    if_neg hne.2.2.2.2.1, if_neg hne.2.2.2.2.2.1, if_neg hne.2.2.2.2.2.2.1,
    if_pos hdig]
  rw [← List.cons_append, hspan]
  have hval : digitsVal (c0 :: cs0) = m := by rw [← hpn]; exact digitsVal_printNat m
  rw [hval]

theorem parseValue_printInt (fuel : Nat) (n : Int) (rest : List Char)
    (hrest : noDigitHead rest = true) :
    parseValue (fuel + 1) (printInt n ++ rest) = some (.num n, rest) := by
  by_cases hn : n < 0
  · rw [printInt, if_pos hn, List.cons_append]
    simp only [parseValue]
    rw [if_neg (by decide), if_neg (by decide), if_neg (by decide), if_neg (by decide),
      if_neg (by decide), if_neg (by decide)]
    simp only [if_true]
    rw [spanDigits_append _ _ (printNat_digits _) hrest]
    have hemp : (printNat (-n).toNat).isEmpty = false := by
      cases h : printNat (-n).toNat with
      | nil => exact absurd h (printNat_ne_nil _)
      | cons a b => rfl
    rw [hemp]
    simp only [Bool.false_eq_true, if_false, digitsVal_printNat]
    have hcast : -(((-n).toNat : Nat) : Int) = n := by omega
    rw [hcast]
  · rw [printInt, if_neg hn]
    rw [parseValue_printNat_case fuel n.toNat rest hrest]
    have hcast : ((n.toNat : Nat) : Int) = n := by omega
    rw [hcast]

theorem printChars_head (v : Value) :
    ∃ c cs, printChars v = c :: cs ∧ ¬c = ']' ∧ ¬c = '}' := by
  cases v with
  | null => exact ⟨'n', ['u', 'l', 'l'], by simp [printChars], by decide, by decide⟩
  | bool b =>
    cases b with
    | true => exact ⟨'t', ['r', 'u', 'e'], by simp [printChars], by decide, by decide⟩
    | false => exact ⟨'f', ['a', 'l', 's', 'e'], by simp [printChars], by decide, by decide⟩
  | num n =>
    by_cases hn : n < 0
    · exact ⟨'-', printNat (-n).toNat, by simp [printChars, printInt, hn], by decide, by decide⟩
    · obtain ⟨c0, cs0, hpn⟩ : ∃ c0 cs0, printNat n.toNat = c0 :: cs0 := by
        cases h : printNat n.toNat with
        | nil => exact absurd h (printNat_ne_nil _)
        | cons a b => exact ⟨a, b, rfl⟩
      have hdig : c0.isDigit = true :=
        printNat_digits _ c0 (by rw [hpn]; exact List.mem_cons_self _ _)
      have hne := digit_ne_lead c0 hdig
      exact ⟨c0, cs0, by simp [printChars, printInt, hn, hpn], hne.2.2.2.2.2.2.2.1,
        hne.2.2.2.2.2.2.2.2.1⟩
  | str s => exact ⟨'"', escList s.data ++ ['"'], by simp [printChars], by decide, by decide⟩
  | arr vs =>
    exact ⟨'[', printItemsChars vs ++ [']'], by simp [printChars], by decide, by decide⟩
  | object m =>
    exact ⟨'{', printFieldsChars m ++ ['}'], by simp [printChars], by decide, by decide⟩

theorem parseEscStr_cons (c : Char) (rest : List Char) :
    parseEscStr (c :: rest) =
      (if c = '"' then some ([], rest)
       else if c = '\\' then
         match rest with
         | d :: rest2 => (parseEscStr rest2).map fun p => (d :: p.1, p.2)
         | [] => none
       else (parseEscStr rest).map fun p => (c :: p.1, p.2)) := by
  rw [parseEscStr.eq_def]

theorem parseEscStr_escList (cs rest : List Char) :
    parseEscStr (escList cs ++ '"' :: rest) = some (cs, rest) := by
  induction cs with
  | nil =>
    show parseEscStr ('"' :: rest) = some ([], rest)
    rw [parseEscStr_cons, if_pos rfl]
  | cons c cs ih =>
    by_cases hc : c = '"' ∨ c = '\\'
    · have h2 : escChar c = ['\\', c] := by rw [escChar, if_pos hc]
      simp only [escList, h2, List.cons_append, List.append_assoc, List.nil_append]
      rw [parseEscStr_cons, if_neg (by decide), if_pos rfl]
      simp [ih]
    · have h2 : escChar c = [c] := by rw [escChar, if_neg hc]
      push_neg at hc
      simp only [escList, h2, List.cons_append, List.append_assoc, List.nil_append]
      rw [parseEscStr_cons, if_neg hc.1, if_neg hc.2]
      simp [ih]

theorem printItemsChars_cons (v : Value) (vs : List Value) :
    printItemsChars (v :: vs) =
      printChars v ++ (if vs.isEmpty then [] else ',' :: printItemsChars vs) := by
  cases vs with
  | nil => simp [printItemsChars]
  | cons v2 vs2 => simp [printItemsChars]

theorem printFieldsChars_cons (k : String) (v : Value) (m : List (String × Value)) :
    printFieldsChars ((k, v) :: m) =
      ('"' :: (escList k.data ++ '"' :: ':' :: printChars v)) ++
        (if m.isEmpty then [] else ',' :: printFieldsChars m) := by
  cases m with
  | nil => simp [printFieldsChars]
  | cons e m2 => simp [printFieldsChars]

theorem parse_print_aux (fuel : Nat) :
    (∀ v rest, (printChars v).length < fuel → noDigitHead rest = true →
      parseValue fuel (printChars v ++ rest) = some (v, rest)) ∧
    (∀ vs rest, vs ≠ [] → (printItemsChars vs).length + 1 < fuel →
      noDigitHead rest = true →
      parseItems fuel (printItemsChars vs ++ ']' :: rest) = some (vs, rest)) ∧
    (∀ m rest, m ≠ [] → (printFieldsChars m).length + 1 < fuel →
      noDigitHead rest = true →
      parseFields fuel (printFieldsChars m ++ '}' :: rest) = some (m, rest)) := by
  induction fuel with
  | zero =>
    refine ⟨fun v rest h _ => absurd h (by omega), fun vs rest _ h _ => absurd h (by omega),
      fun m rest _ h _ => absurd h (by omega)⟩
  | succ fuel ih =>
    obtain ⟨ihP, ihQ, ihR⟩ := ih
    refine ⟨?_, ?_, ?_⟩
    · intro v rest hlen hrest
      cases v with
      | null =>
        simp only [printChars, List.cons_append, List.nil_append]
        simp +decide [parseValue, dropLead]
      | bool b =>
        cases b with
        | true =>
          simp only [printChars, List.cons_append, List.nil_append]
          simp +decide [parseValue, dropLead]
        | false =>
          simp only [printChars, List.cons_append, List.nil_append]
          simp +decide [parseValue, dropLead]
      | num n =>
        simp only [printChars]
        exact parseValue_printInt fuel n rest hrest
      | str s =>
        simp only [printChars, List.cons_append, List.append_assoc,
          List.singleton_append, List.nil_append]
        simp only [parseValue]
        simp +decide only [if_true, if_false]
        rw [parseEscStr_escList]
      | arr vs =>
        simp only [printChars, List.cons_append, List.append_assoc,
          List.singleton_append, List.nil_append]
        cases vs with
        | nil =>
          simp only [printItemsChars, List.nil_append]
          simp +decide [parseValue, headIs]
        | cons v vs2 =>
          have hlen2 : (printItemsChars (v :: vs2)).length + 1 < fuel := by
            simp only [printChars, List.length_cons, List.length_append,
              List.length_singleton] at hlen
            omega
          have hq := ihQ (v :: vs2) rest (List.cons_ne_nil v vs2) hlen2 hrest
          obtain ⟨c, cs, hpc, hc1, hc2⟩ := printChars_head v
          have hhead : headIs (printItemsChars (v :: vs2) ++ ']' :: rest) ']' = false := by
            rw [printItemsChars_cons]
            cases hemp : vs2.isEmpty <;>
              simp [hpc, headIs, hc1, List.cons_append]
          simp only [parseValue]
          simp +decide only [if_true, if_false]
          rw [hhead]
          simp only [Bool.false_eq_true, if_false, hq]
      | object m =>
        simp only [printChars, List.cons_append, List.append_assoc,
          List.singleton_append, List.nil_append]
        cases m with
        | nil =>
          simp only [printFieldsChars, List.nil_append]
          simp +decide [parseValue, headIs]
        | cons e m2 =>
          obtain ⟨k, v⟩ := e
          have hlen2 : (printFieldsChars ((k, v) :: m2)).length + 1 < fuel := by
            simp only [printChars, List.length_cons, List.length_append,
              List.length_singleton] at hlen
            omega
          have hr := ihR ((k, v) :: m2) rest (List.cons_ne_nil (k, v) m2) hlen2 hrest
          have hhead : headIs (printFieldsChars ((k, v) :: m2) ++ '}' :: rest) '}' = false := by
            rw [printFieldsChars_cons]
            cases hemp : m2.isEmpty <;>
              simp [headIs, List.cons_append]
          simp only [parseValue]
          simp +decide only [if_true, if_false]
          rw [hhead]
          simp only [Bool.false_eq_true, if_false, hr]
    · intro vs rest hne hlen hrest
      cases vs with
      | nil => exact absurd rfl hne
      | cons v vs2 =>
        cases vs2 with
        | nil =>
          simp only [printItemsChars, List.nil_append]
          have hlenv : (printChars v).length < fuel := by
            simp only [printItemsChars, List.length_cons] at hlen
            omega
          have hp := ihP v (']' :: rest) hlenv rfl
          simp only [parseItems, hp]
          simp +decide
        | cons v2 vs3 =>
          simp only [printItemsChars, List.cons_append, List.append_assoc,
            List.singleton_append]
          have hlens : (printChars v).length < fuel ∧
              (printItemsChars (v2 :: vs3)).length + 1 < fuel := by
            simp only [printItemsChars, List.length_append, List.length_cons] at hlen ⊢
            constructor <;> omega
          have hp := ihP v (',' :: (printItemsChars (v2 :: vs3) ++ ']' :: rest))
            hlens.1 rfl
          have hq := ihQ (v2 :: vs3) rest (List.cons_ne_nil v2 vs3) hlens.2 hrest
          simp only [parseItems, List.cons_append, hp]
          simp +decide [hq]
    · intro m rest hne hlen hrest
      cases m with
      | nil => exact absurd rfl hne
      | cons e m2 =>
        obtain ⟨k, v⟩ := e
        cases m2 with
        | nil =>
          simp only [printFieldsChars, List.cons_append, List.append_assoc,
            List.singleton_append]
          have hlenv : (printChars v).length < fuel := by
            simp only [printFieldsChars, List.length_cons, List.length_append] at hlen
            omega
          have hp := ihP v ('}' :: rest) hlenv rfl
          simp only [parseFields]
          simp +decide only [if_true, if_false]
          rw [show escList k.data ++ '"' :: ':' :: (printChars v ++ '}' :: rest) =
            escList k.data ++ '"' :: (':' :: (printChars v ++ '}' :: rest)) from rfl]
          rw [parseEscStr_escList]
          simp only [hp]
          simp +decide
        | cons e2 m3 =>
          simp only [printFieldsChars, List.cons_append, List.append_assoc,
            List.singleton_append]
          have hlens : (printChars v).length < fuel ∧
              (printFieldsChars (e2 :: m3)).length + 1 < fuel := by
            simp only [printFieldsChars, List.length_append, List.length_cons] at hlen ⊢
            constructor <;> omega
          have hp := ihP v (',' :: (printFieldsChars (e2 :: m3) ++ '}' :: rest))
            hlens.1 rfl
          have hr := ihR (e2 :: m3) rest (List.cons_ne_nil e2 m3) hlens.2 hrest
          simp only [parseFields]
          simp +decide only [if_true, if_false]
          rw [show escList k.data ++ '"' :: ':' ::
              (printChars v ++ ',' :: (printFieldsChars (e2 :: m3) ++ '}' :: rest)) =
            escList k.data ++ '"' ::
              (':' :: (printChars v ++ ',' :: (printFieldsChars (e2 :: m3) ++ '}' :: rest)))
            from rfl]
          rw [parseEscStr_escList]
          simp only [hp]
          simp +decide [hr]

theorem from_str_to_string_pretty (v : Value) :
    from_str (to_string_pretty v) = some v := by
  have h := (parse_print_aux ((printChars v).length + 1)).1 v [] (by omega) rfl
  rw [List.append_nil] at h
  have hd : (to_string_pretty v).data = printChars v := rfl
  have hl : (to_string_pretty v).length = (printChars v).length := rfl
  rw [from_str, hd, hl, h]

/-- Claim C9: for every store, `save()` followed by `load_or_default()` on
the same path recovers the store exactly (the tree and the location), and
the bytes `save` leaves at the location depend only on the store, not on
the prior state of the filesystem (determinism within the
implementation). -/
theorem save_load_round_trip :
    (∀ (fs : FS) (c : FigCon),
      FigCon.load_or_default (FigCon.save fs c) c.location = .ok c) ∧
    (∀ (fs1 fs2 : FS) (c : FigCon),
      FigCon.save fs1 c c.location = FigCon.save fs2 c c.location) := by
  constructor
  · intro fs c
    obtain ⟨lc, loc⟩ := c
    have hsave : FigCon.save fs ⟨lc, loc⟩ loc = FileContent.content (to_string_pretty lc) := by
      simp [FigCon.save]
    simp only [FigCon.load_or_default, hsave, from_str_to_string_pretty]
  · intro fs1 fs2 c
    simp [FigCon.save]

/-- Claim C2 counterexample: `load_or_default` on an existing, openable,
parseable file whose top-level value is the array `[1]` yields a store
whose root is not an Object — refuting "it is an Object immediately after
load_or_default for every input (existing parseable file, …)". -/
theorem load_root_not_object_counterexample :
    FigCon.load_or_default (fun _ => FileContent.content "[1]") "config.json" =
      .ok ⟨Value.arr [Value.num 1], "config.json"⟩ ∧
    (Value.arr [Value.num 1]).isObject = false :=
  ⟨rfl, rfl⟩
